import Mathlib

/-
Verification of the nionutils derived-list-view engine, the property-model
value holder (src/nion/utils/Model.py) and the change recorder
(src/nion/utils/Recorder.py).

The repository's src tree carries Model.py, Recorder.py and the ListModel
test suite; the ListModel/Selection implementations themselves are not in
src, so those parts are modelled from the specification (spec.md) and each
such definition says so in its doc comment.
-/

namespace NionUtils

open List

/-! ## PropertyModel (src/nion/utils/Model.py) -/

/-- State of a `PropertyModel` (Model.py): the stored optional value together
with two observation logs: the keys passed to `notify_property_changed` and the
arguments of the calls made to a registered `on_value_changed` callback. -/
structure PMState (α : Type) where
  value : Option α
  propertyChanged : List String
  onValueChanged : List (Option α)
deriving DecidableEq

/-- The not-equal gate of the `value` setter of `PropertyModel`
(Model.py lines 47-54).  A `None` current value makes the test `value is not
None`; a `None` new value (with a non-`None` current value) makes it
`self.__value is not None`, which is true in that branch; only when both are
non-`None` is the configured comparison consulted, as
`not self.__cmp(value, self.__value)`. -/
def valueNotEqual {α : Type} (cmp : Option α → Option α → Bool) (cur w : Option α) : Bool :=
  match cur, w with
  | none, w => w.isSome
  | some _, none => true
  | some a, some b => !(cmp (some b) (some a))

/-- The `value` setter of `PropertyModel` (Model.py lines 47-58) combined with
`_set_value` (lines 60-62): when the gate passes, the value is stored,
`notify_property_changed("value")` fires, and then `on_value_changed` is called
with the new value; otherwise nothing happens. -/
def setValue {α : Type} (cmp : Option α → Option α → Bool) (st : PMState α) (w : Option α) :
    PMState α :=
  if valueNotEqual cmp st.value w then
    ⟨w, st.propertyChanged ++ ["value"], st.onValueChanged ++ [w]⟩
  else st

/-- The amended gating condition stated declaratively: a `None`/non-`None`
transition in either direction always counts as a change, `None` to `None`
never does, and two non-`None` values are compared with the configured
comparison (new value first, as in the source). -/
def valueDiffers {α : Type} (cmp : Option α → Option α → Bool) (v w : Option α) : Prop :=
  (v = none ∧ w ≠ none) ∨ (v ≠ none ∧ w = none) ∨
    (∃ a b, v = some a ∧ w = some b ∧ cmp (some b) (some a) = false)

/-! ## Recorder (src/nion/utils/Recorder.py) -/

/-- A relationship sub-recorder of `Recorder` (Recorder.py), reduced to the
`index` field of its `IndexAccessor` (lines 34-40): the accessor resolves as
`accessor.get(o)[index]`, so the stored index is the relationship position the
sub-recorder will read.  The list holds the sub-recorders of one relationship
key in list order. -/
abbrev RecorderList := List Nat

/-- `Recorder.__item_inserted` (Recorder.py lines 157-162) for one relationship
key: every sub-recorder at list position at least `before_index` has its
accessor replaced by an `IndexAccessor` at position + 1, then a new
sub-recorder whose accessor index is `before_index` is inserted at list
position `before_index`. -/
def itemInserted (rs : RecorderList) (beforeIndex : Nat) : RecorderList :=
  (rs.mapIdx fun idx a => if beforeIndex ≤ idx then idx + 1 else a).insertIdx beforeIndex beforeIndex

/-- `Recorder.__item_removed` (Recorder.py lines 164-169) for one relationship
key: every sub-recorder at list position strictly greater than `item_index` has
its accessor replaced by an `IndexAccessor` at position - 1, then the
sub-recorder at `item_index` is popped (and closed). -/
def itemRemoved (rs : RecorderList) (itemIndex : Nat) : RecorderList :=
  (rs.mapIdx fun idx a => if itemIndex < idx then idx - 1 else a).eraseIdx itemIndex

/-- A structural event delivered to `Recorder` for one relationship key:
`item_inserted` with its `before_index`, or `item_removed` with its
`item_index`. -/
inductive RecEvent where
  | inserted (beforeIndex : Nat)
  | removed (itemIndex : Nat)

/-- Dispatch of one structural event to the relationship recorder list,
following `Recorder.__item_inserted` and `Recorder.__item_removed`. -/
def recStep (rs : RecorderList) : RecEvent → RecorderList
  | .inserted i => itemInserted rs i
  | .removed i => itemRemoved rs i

/-- A sequence of structural events applied to the relationship recorder
list. -/
def recRun (rs : RecorderList) (es : List RecEvent) : RecorderList :=
  es.foldl recStep rs

/-- Validity of an event sequence against the current relationship length: an
insert index is at most the length and a removal index is below it (the
spec's programmer contract for structural events, §4.1). -/
def recValid : Nat → List RecEvent → Bool
  | _, [] => true
  | n, .inserted i :: es => decide (i ≤ n) && recValid (n + 1) es
  | n, .removed i :: es => decide (i < n) && recValid (n - 1) es

/-! ## Shared structural events for flat list sources -/

/-- A structural event of an ordered collection (§4.1): `insert(index, item)`
fires item-inserted after the item is in place, `remove(index)` fires
item-removed before the item leaves. -/
inductive ListEvent (α : Type) where
  | insert (i : Nat) (x : α)
  | remove (i : Nat)

/-- Validity of a structural event sequence against the evolving source
length (§4.1: indices are a programmer contract, `0 ≤ index ≤ len` for insert
and `index < len` for remove). -/
def eventsValid {α : Type} : Nat → List (ListEvent α) → Bool
  | _, [] => true
  | n, .insert i _ :: es => decide (i ≤ n) && eventsValid (n + 1) es
  | n, .remove i :: es => decide (i < n) && eventsValid (n - 1) es

/-! ## Filter abstraction (modelled: ListModel.py is not in src) -/

/-- Modelled from the spec: the Filter abstraction of the missing
`ListModel.py` (spec §2, §3, §9) is a closed set of variants: accept-all with
a boolean (the test suite's `ListModel.Filter(True)`), a predicate filter
(`ListModel.PredicateFilter`), and and/or/not combinators. -/
inductive LFilter (α : Type) where
  | acceptAll (accept : Bool)
  | pred (p : α → Bool)
  | fAnd (f g : LFilter α)
  | fOr (f g : LFilter α)
  | fNot (f : LFilter α)

/-- Modelled from the spec: evaluation of a Filter variant on one item
(spec §3: a stateless predicate over a single item). -/
def LFilter.matches {α : Type} : LFilter α → α → Bool
  | .acceptAll b, _ => b
  | .pred p, x => p x
  | .fAnd f g, x => f.matches x && g.matches x
  | .fOr f g, x => f.matches x || g.matches x
  | .fNot f, x => !(f.matches x)

/-! ## Filtered/Sorted view (modelled: ListModel.py is not in src) -/

/-- Modelled from the spec: the state of the missing
`ListModel.FilteredListModel` (spec §3): a reference to the source sequence
and the currently materialized derived sequence. -/
structure FilteredState (α : Type) where
  source : List α
  view : List α

/-- Modelled from the spec: incremental update of the filtered view without a
sort key (spec §4.2).  On a source insert, a rejected item is a no-op and an
accepted item is inserted at the position matching the accepted-items count
before the source index; on a source remove (fired while the item is still in
place), a filtered-out item is a no-op and otherwise the item's derived index
is the accepted-items count before its source index. -/
def filteredStep {α : Type} (F : α → Bool) (st : FilteredState α) : ListEvent α → FilteredState α
  | .insert i x =>
      ⟨st.source.insertIdx i x,
        if F x then st.view.insertIdx ((st.source.take i).countP F) x else st.view⟩
  | .remove i =>
      match st.source[i]? with
      | some x =>
          ⟨st.source.eraseIdx i,
            if F x then st.view.eraseIdx ((st.source.take i).countP F) else st.view⟩
      | none => st

/-- Modelled from the spec: a sequence of source structural events pushed
through the unsorted filtered view (spec §2: push-based data flow). -/
def filteredRun {α : Type} (F : α → Bool) (st : FilteredState α) (es : List (ListEvent α)) :
    FilteredState α :=
  es.foldl (filteredStep F) st

/-- Modelled from the spec: the sorted incremental insert of the filtered view
(spec §4.2): search the sort key among materialized items for the insertion
point, ties broken by insertion stability, the new item placed after existing
equal-keyed items. -/
def insertSorted {α β : Type} [LinearOrder β] (K : α → β) (x : α) : List α → List α
  | [] => [x]
  | y :: ys => if K x < K y then x :: y :: ys else y :: insertSorted K x ys

/-- Modelled from the spec: the full recompute of a sorted filtered view
(spec §4.2): a stable sort by key of the filtered source, realized as
insertion in source order with ties placed after existing equal-keyed
items. -/
def sortByKey {α β : Type} [LinearOrder β] (K : α → β) (l : List α) : List α :=
  l.foldl (fun acc x => insertSorted K x acc) []

/-- Modelled from the spec: incremental update of the filtered view with a
sort key (spec §4.2).  An accepted inserted item goes to its sorted position
with ties after existing equal keys; a removal drops the removed item from the
materialized sequence. -/
def sortedStep {α β : Type} [DecidableEq α] [LinearOrder β] (F : α → Bool) (K : α → β)
    (st : FilteredState α) : ListEvent α → FilteredState α
  | .insert i x =>
      ⟨st.source.insertIdx i x, if F x then insertSorted K x st.view else st.view⟩
  | .remove i =>
      match st.source[i]? with
      | some x =>
          ⟨st.source.eraseIdx i, if F x then st.view.erase x else st.view⟩
      | none => st

/-- Modelled from the spec: a sequence of source structural events pushed
through the sorted filtered view. -/
def sortedRun {α β : Type} [DecidableEq α] [LinearOrder β] (F : α → Bool) (K : α → β)
    (st : FilteredState α) (es : List (ListEvent α)) : FilteredState α :=
  es.foldl (sortedStep F K) st

/-- The derived sequence is sorted by the key `K` (spec §4.2: the view's
materialized sequence under a sort key). -/
abbrev KSorted {α β : Type} [LinearOrder β] (K : α → β) (l : List α) : Prop :=
  l.Pairwise fun a b => K a ≤ K b

/-- Modelled from the spec: clearing the sort key of an attached view triggers
a recompute under the new configuration (spec §3 lifecycle and §4.2), leaving
the materialized sequence equal to the filtered source in source order. -/
def setUnsorted {α : Type} (F : α → Bool) (st : FilteredState α) : FilteredState α :=
  ⟨st.source, st.source.filter F⟩

/-- Modelled from the spec: giving an attached view a sort key triggers a
recompute under the new configuration (spec §3 lifecycle and §4.2), leaving
the materialized sequence equal to the stable sort by key of the filtered
source. -/
def setSorted {α β : Type} [LinearOrder β] (F : α → Bool) (K : α → β) (st : FilteredState α) :
    FilteredState α :=
  ⟨st.source, sortByKey K (st.source.filter F)⟩

/-! ## Element-mapping view (modelled: ListModel.py is not in src) -/

/-- Modelled from the spec: the state of the missing
`ListModel.MappedListModel` (spec §4.3): source sequence and materialized
transformed sequence. -/
structure MappedState (α β : Type) where
  source : List α
  view : List β

/-- Modelled from the spec: incremental update of the mapped view (spec §4.3):
a source insert at index `i` produces one mapped insert at index `i` with the
transformed value; a source remove at index `i` produces one mapped remove at
index `i`. -/
def mappedStep {α β : Type} (f : α → β) (st : MappedState α β) : ListEvent α → MappedState α β
  | .insert i x => ⟨st.source.insertIdx i x, st.view.insertIdx i (f x)⟩
  | .remove i => ⟨st.source.eraseIdx i, st.view.eraseIdx i⟩

/-- Modelled from the spec: a sequence of source structural events pushed
through the mapped view. -/
def mappedRun {α β : Type} (f : α → β) (st : MappedState α β) (es : List (ListEvent α)) :
    MappedState α β :=
  es.foldl (mappedStep f) st

/-! ## Flattening view (modelled: ListModel.py is not in src) -/

/-- Modelled from the spec: the state of the missing
`ListModel.FlattenedListModel` (spec §4.4): the master list with each master
item's child sequence, and the materialized concatenated sequence. -/
structure FlatState (α : Type) where
  master : List (List α)
  flat : List α

/-- A structural event reaching the flattening view (spec §4.4): a master
insert carrying the new item's pre-populated child sequence, a master removal,
or an insert/remove inside the child sequence of the master item at `i`. -/
inductive FlatEvent (α : Type) where
  | masterInsert (i : Nat) (children : List α)
  | masterRemove (i : Nat)
  | childInsert (i j : Nat) (x : α)
  | childRemove (i j : Nat)

/-- Modelled from the spec: the flat offset of master position `i` (spec §4.4):
the sum of the child-sequence lengths of all master items before `i`. -/
def offsetAt {α : Type} (m : List (List α)) (i : Nat) : Nat :=
  ((m.take i).map List.length).sum

/-- Modelled from the spec: incremental update of the flattening view
(spec §4.4).  A master insert splices the new item's children at its flat
offset; a master removal (fired while the item is still in place) drops that
item's children from its flat offset; a child insert or remove translates the
child-local index by the child's flat base offset. -/
def flatStep {α : Type} (st : FlatState α) : FlatEvent α → FlatState α
  | .masterInsert i c =>
      ⟨st.master.insertIdx i c,
        st.flat.take (offsetAt st.master i) ++ c ++ st.flat.drop (offsetAt st.master i)⟩
  | .masterRemove i =>
      match st.master[i]? with
      | some c =>
          ⟨st.master.eraseIdx i,
            st.flat.take (offsetAt st.master i) ++ st.flat.drop (offsetAt st.master i + c.length)⟩
      | none => st
  | .childInsert i j x =>
      match st.master[i]? with
      | some c =>
          ⟨st.master.set i (c.insertIdx j x), st.flat.insertIdx (offsetAt st.master i + j) x⟩
      | none => st
  | .childRemove i j =>
      match st.master[i]? with
      | some c =>
          ⟨st.master.set i (c.eraseIdx j), st.flat.eraseIdx (offsetAt st.master i + j)⟩
      | none => st

/-- Modelled from the spec: a sequence of two-level structural events pushed
through the flattening view. -/
def flatRun {α : Type} (st : FlatState α) (es : List (FlatEvent α)) : FlatState α :=
  es.foldl flatStep st

/-- Validity of one two-level structural event against the current master list
(spec §4.1 index contract at each level). -/
def flatEventValid {α : Type} (m : List (List α)) : FlatEvent α → Bool
  | .masterInsert i _ => decide (i ≤ m.length)
  | .masterRemove i => decide (i < m.length)
  | .childInsert i j _ =>
      match m[i]? with
      | some c => decide (j ≤ c.length)
      | none => false
  | .childRemove i j =>
      match m[i]? with
      | some c => decide (j < c.length)
      | none => false

/-- Validity of a two-level event sequence against the evolving master
list. -/
def flatValidSeq {α : Type} (st : FlatState α) : List (FlatEvent α) → Bool
  | [] => true
  | e :: es => flatEventValid st.master e && flatValidSeq (flatStep st e) es

/-! ## Selection adjustment (modelled: Selection.py is not in src) -/

/-- Modelled from the spec: the adjustment the missing Selection applies on an
insert at index `i` fired by its view (spec §4.5): every currently selected
index at least `i` is incremented; the newly inserted index is never
auto-selected. -/
def selAfterInsert (sel : Finset ℕ) (i : ℕ) : Finset ℕ :=
  sel.image fun j => if i ≤ j then j + 1 else j

/-- Modelled from the spec: the adjustment the missing Selection applies on a
removal at index `i` fired by its view (spec §4.5): a selected index equal to
`i` is dropped and every selected index above `i` is decremented. -/
def selAfterRemove (sel : Finset ℕ) (i : ℕ) : Finset ℕ :=
  (sel.erase i).image fun j => if i < j then j - 1 else j

/-! ## Batching (modelled: ListModel.py is not in src) -/

/-- Modelled from the spec: the begin/end notification machinery of a view
(spec §4.2 batching, §9 explicit nesting counter): the current nesting depth
and counters of `begin_changes` and `end_changes` notifications emitted so
far. -/
structure BatchState where
  depth : ℕ
  begins : ℕ
  ends : ℕ
deriving DecidableEq

/-- Modelled from the spec: `begin_change` (spec §4.2): entering the outermost
level emits one `begin_changes` notification; nested entries emit nothing. -/
def beginChanges (s : BatchState) : BatchState :=
  ⟨s.depth + 1, if s.depth = 0 then s.begins + 1 else s.begins, s.ends⟩

/-- Modelled from the spec: `end_change` (spec §4.2): leaving the outermost
level emits one `end_changes` notification; nested exits emit nothing. -/
def endChanges (s : BatchState) : BatchState :=
  ⟨s.depth - 1, s.begins, if s.depth = 1 then s.ends + 1 else s.ends⟩

/-- Modelled from the spec: one individual structural mutation seen by the
view, wrapped in its own begin/end pair (spec §4.2: outside of an open batch
every individual structural mutation fires its own pair; inside a batch the
nested pair collapses). -/
def mutate (s : BatchState) : BatchState :=
  endChanges (beginChanges s)

/-- `k` consecutive structural mutations. -/
def mutateN : ℕ → BatchState → BatchState
  | 0, s => s
  | k + 1, s => mutateN k (mutate s)

/-- Modelled from the spec: an explicit batch scope holding `k` structural
mutations (spec §4.2: the `changes` scope calls `begin_change`, performs the
mutations, then calls `end_change`). -/
def batchScope (k : ℕ) (s : BatchState) : BatchState :=
  endChanges (mutateN k (beginChanges s))

/-! ## Theorems: PropertyModel (C8) -/

theorem valueDiffers_iff {α : Type} (cmp : Option α → Option α → Bool) (v w : Option α) :
    valueDiffers cmp v w ↔ valueNotEqual cmp v w = true := by
  cases v with
  | none => cases w <;> simp [valueDiffers, valueNotEqual]
  | some a => cases w <;> simp [valueDiffers, valueNotEqual]

/-- C8 counterexample: with a configured comparison that deems every two
values equal, the setter still fires on a `None` to `0` transition, so firing
is not equivalent to "the new value differs from the current one under the
configured equality comparison". -/
theorem propertyModel_setter_C8_counterexample :
    ¬ (((setValue (fun _ _ => true) (⟨none, [], []⟩ : PMState Nat) (some 0)).propertyChanged
          ≠ (⟨none, [], []⟩ : PMState Nat).propertyChanged)
        ↔ (fun (_ _ : Option Nat) => true) (some 0) none = false) := by
  decide

/-- C8 (amended): the value setter fires the `"value"` property-changed
notification and the `on_value_changed` call exactly when the new value
differs from the current one, where a `None`/non-`None` transition always
counts as different, `None` to `None` never fires, and two non-`None` values
are compared with the configured comparison; otherwise the stored value and
the observer logs are untouched. -/
theorem propertyModel_setter_C8 {α : Type} (cmp : Option α → Option α → Bool)
    (st : PMState α) (w : Option α) :
    (valueDiffers cmp st.value w →
        setValue cmp st w = ⟨w, st.propertyChanged ++ ["value"], st.onValueChanged ++ [w]⟩)
    ∧ (¬ valueDiffers cmp st.value w → setValue cmp st w = st) := by
  constructor
  · intro h
    rw [valueDiffers_iff] at h
    unfold setValue
    rw [if_pos h]
  · intro h
    rw [valueDiffers_iff] at h
    unfold setValue
    rw [if_neg h]

/-- C8 witness: a concrete fired transition between two distinct non-`None`
values under decidable equality as the comparison. -/
theorem propertyModel_setter_C8_witness :
    setValue (fun a b => decide (a = b)) (⟨some 1, [], []⟩ : PMState Nat) (some 2)
      = ⟨some 2, ["value"], [some 2]⟩ :=
  (propertyModel_setter_C8 (fun a b => decide (a = b)) ⟨some 1, [], []⟩ (some 2)).1
    (Or.inr (Or.inr ⟨1, 2, rfl, rfl, by decide⟩))

/-! ## Theorems: batching (C6) -/

theorem mutate_eq (s : BatchState) :
    mutate s = ⟨s.depth, if s.depth = 0 then s.begins + 1 else s.begins,
      if s.depth = 0 then s.ends + 1 else s.ends⟩ := by
  obtain ⟨d, b, e⟩ := s
  by_cases h : d = 0
  · subst h; simp [mutate, beginChanges, endChanges]
  · simp only [mutate, beginChanges, endChanges, if_neg h]
    rw [if_neg (by omega : ¬ d + 1 = 1)]
    simp

theorem mutate_of_depth_pos {s : BatchState} (h : s.depth ≠ 0) : mutate s = s := by
  obtain ⟨d, b, e⟩ := s
  rw [mutate_eq]
  simp at h
  simp [h]

theorem mutateN_of_depth_pos {s : BatchState} (h : s.depth ≠ 0) :
    ∀ k, mutateN k s = s := by
  intro k
  induction k with
  | zero => rfl
  | succ k ih =>
      rw [mutateN, mutate_of_depth_pos h]
      exact ih

theorem mutateN_of_depth_zero (n : ℕ) :
    ∀ (s : BatchState), s.depth = 0 → mutateN n s = ⟨0, s.begins + n, s.ends + n⟩ := by
  induction n with
  | zero =>
      intro s h
      obtain ⟨d, b, e⟩ := s
      simp at h
      subst h
      rfl
  | succ k ih =>
      intro s h
      obtain ⟨d, b, e⟩ := s
      simp at h
      subst h
      have hm : mutate (⟨0, b, e⟩ : BatchState) = ⟨0, b + 1, e + 1⟩ := by
        rw [mutate_eq]
        simp
      rw [mutateN, hm, ih ⟨0, b + 1, e + 1⟩ rfl]
      dsimp only
      congr 1 <;> omega

/-- C6: inside one explicit batch scope the view emits exactly one
begin/end notification pair no matter how many structural mutations occur in
the scope, and outside any scope each individual mutation emits exactly one
pair. -/
theorem batching_C6 (s : BatchState) (k n : ℕ) (h : s.depth = 0) :
    batchScope k s = ⟨0, s.begins + 1, s.ends + 1⟩
    ∧ mutateN n s = ⟨0, s.begins + n, s.ends + n⟩ := by
  constructor
  · unfold batchScope
    have hb : beginChanges s = ⟨s.depth + 1, s.begins + 1, s.ends⟩ := by
      simp [beginChanges, h]
    rw [hb, h]
    rw [mutateN_of_depth_pos (by simp) k]
    simp [endChanges]
  · exact mutateN_of_depth_zero n s h

/-- C6 witness: a batch of five mutations emits one pair; three unbatched
mutations emit three pairs. -/
theorem batching_C6_witness :
    batchScope 5 ⟨0, 0, 0⟩ = ⟨0, 1, 1⟩ ∧ mutateN 3 ⟨0, 0, 0⟩ = ⟨0, 3, 3⟩ :=
  batching_C6 ⟨0, 0, 0⟩ 5 3 rfl

/-! ## Theorems: selection adjustment (C4) -/

/-- C4: on an insert at index `i` fired by the attached view, a selected index
below `i` is kept and every selected index at least `i` is shifted up by one,
the new index `i` is never auto-selected; on a removal at index `i`, the
selected index `i` is dropped and every selected index above `i` is shifted
down by one.  The two concrete equalities replay the mapped-model selection
tests: selection `{0, 1}` after an insert at 1 and selection `{0, 2}` after a
removal at 1. -/
theorem selection_C4 :
    (∀ (sel : Finset ℕ) (i j : ℕ),
        j ∈ selAfterInsert sel i ↔ (j < i ∧ j ∈ sel) ∨ (i < j ∧ j - 1 ∈ sel))
    ∧ (∀ (sel : Finset ℕ) (i : ℕ), i ∉ selAfterInsert sel i)
    ∧ (∀ (sel : Finset ℕ) (i j : ℕ),
        j ∈ selAfterRemove sel i ↔ (j < i ∧ j ∈ sel) ∨ (i ≤ j ∧ j + 1 ∈ sel))
    ∧ selAfterInsert {0, 1} 1 = {0, 2}
    ∧ selAfterRemove {0, 2} 1 = {0, 1} := by
  refine ⟨?_, ?_, ?_, by decide, by decide⟩
  · intro sel i j
    simp only [selAfterInsert, Finset.mem_image]
    constructor
    · rintro ⟨a, ha, hae⟩
      by_cases hia : i ≤ a
      · rw [if_pos hia] at hae
        right
        refine ⟨by omega, ?_⟩
        have hj : j - 1 = a := by omega
        rw [hj]
        exact ha
      · rw [if_neg hia] at hae
        left
        exact ⟨by omega, hae ▸ ha⟩
    · rintro (⟨hji, hj⟩ | ⟨hij, hj⟩)
      · exact ⟨j, hj, if_neg (by omega)⟩
      · refine ⟨j - 1, hj, ?_⟩
        rw [if_pos (by omega)]
        omega
  · intro sel i
    simp only [selAfterInsert, Finset.mem_image]
    rintro ⟨a, ha, hae⟩
    by_cases hia : i ≤ a
    · rw [if_pos hia] at hae
      omega
    · rw [if_neg hia] at hae
      omega
  · intro sel i j
    simp only [selAfterRemove, Finset.mem_image, Finset.mem_erase]
    constructor
    · rintro ⟨a, ⟨hne, ha⟩, hae⟩
      by_cases hia : i < a
      · rw [if_pos hia] at hae
        right
        refine ⟨by omega, ?_⟩
        have hj : j + 1 = a := by omega
        rw [hj]
        exact ha
      · rw [if_neg hia] at hae
        left
        exact ⟨by omega, hae ▸ ha⟩
    · rintro (⟨hji, hj⟩ | ⟨hij, hj⟩)
      · exact ⟨j, ⟨by omega, hj⟩, if_neg (by omega)⟩
      · refine ⟨j + 1, ⟨by omega, hj⟩, ?_⟩
        rw [if_pos (by omega)]
        omega

/-- C4 witness: the insert-adjustment membership rule applied to the concrete
selection of the mapped-model insert test. -/
theorem selection_C4_witness :
    2 ∈ selAfterInsert {0, 1} 1 ↔ (2 < 1 ∧ 2 ∈ ({0, 1} : Finset ℕ)) ∨ (1 < 2 ∧ 1 ∈ ({0, 1} : Finset ℕ)) :=
  selection_C4.1 {0, 1} 1 2

/-! ## Theorems: element-mapping view (C5) -/

theorem map_insertIdx {α β : Type} (f : α → β) (x : α) :
    ∀ (i : Nat) (s : List α), (s.insertIdx i x).map f = (s.map f).insertIdx i (f x) := by
  intro i s
  induction s generalizing i with
  | nil =>
      cases i with
      | zero => simp
      | succ k => simp [insertIdx_succ_nil]
  | cons y t ih =>
      cases i with
      | zero => simp
      | succ k => simp [insertIdx_succ_cons, ih]

theorem map_eraseIdx {α β : Type} (f : α → β) :
    ∀ (i : Nat) (s : List α), (s.eraseIdx i).map f = (s.map f).eraseIdx i := by
  intro i s
  induction s generalizing i with
  | nil => simp [eraseIdx]
  | cons y t ih =>
      cases i with
      | zero => simp [eraseIdx_cons_zero]
      | succ k => simp [eraseIdx_cons_succ, ih]

theorem mappedRun_view {α β : Type} (f : α → β) :
    ∀ (es : List (ListEvent α)) (st : MappedState α β), st.view = st.source.map f →
      (mappedRun f st es).view = (mappedRun f st es).source.map f := by
  intro es
  induction es with
  | nil => intro st h; exact h
  | cons e es ih =>
      intro st h
      have hstep : (mappedStep f st e).view = (mappedStep f st e).source.map f := by
        cases e with
        | insert i x => simp [mappedStep, h, map_insertIdx]
        | remove i => simp [mappedStep, h, map_eraseIdx]
      exact ih (mappedStep f st e) hstep

/-- C5: through any sequence of source inserts and removes, the mapped view's
materialized sequence equals the source mapped by the transform, its length
always equals the source length, and every position holds the transform of the
source item at that position.  Each source insert produces exactly one mapped
insert at the same index with the transformed value, and each source remove
one mapped remove at the same index, as `mappedStep` performs. -/
theorem mapped_C5 {α β : Type} (f : α → β) (s₀ : List α) (es : List (ListEvent α)) :
    (mappedRun f ⟨s₀, s₀.map f⟩ es).view = (mappedRun f ⟨s₀, s₀.map f⟩ es).source.map f
    ∧ (mappedRun f ⟨s₀, s₀.map f⟩ es).view.length
        = (mappedRun f ⟨s₀, s₀.map f⟩ es).source.length
    ∧ ∀ k : Nat, (mappedRun f ⟨s₀, s₀.map f⟩ es).view[k]?
        = ((mappedRun f ⟨s₀, s₀.map f⟩ es).source[k]?).map f := by
  have h := mappedRun_view f es ⟨s₀, s₀.map f⟩ rfl
  refine ⟨h, ?_, ?_⟩
  · rw [h, length_map]
  · intro k
    rw [h, getElem?_map]

/-! ## Theorems: filtered view without sort key (C1) -/

theorem filter_insertIdx {α : Type} (F : α → Bool) (x : α) :
    ∀ (i : Nat) (s : List α), i ≤ s.length →
      (s.insertIdx i x).filter F =
        if F x then (s.filter F).insertIdx ((s.take i).countP F) x else s.filter F := by
  intro i s
  induction s generalizing i with
  | nil =>
      intro hi
      have hi0 : i = 0 := by simpa using hi
      subst hi0
      cases hF : F x <;> simp [hF]
  | cons y t ih =>
      intro hi
      cases i with
      | zero =>
          cases hF : F x <;> cases hFy : F y <;>
            simp [insertIdx_zero, filter_cons, hF, hFy]
      | succ k =>
          have hk : k ≤ t.length := by simpa using hi
          rw [insertIdx_succ_cons]
          cases hF : F x <;> cases hFy : F y <;>
            simp [filter_cons, hF, hFy, take_succ_cons, countP_cons, ih k hk,
              insertIdx_succ_cons]

theorem filter_eraseIdx {α : Type} (F : α → Bool) :
    ∀ (i : Nat) (s : List α) (x : α), s[i]? = some x →
      (s.eraseIdx i).filter F =
        if F x then (s.filter F).eraseIdx ((s.take i).countP F) else s.filter F := by
  intro i s
  induction s generalizing i with
  | nil =>
      intro x hx
      simp at hx
  | cons y t ih =>
      intro x hx
      cases i with
      | zero =>
          simp only [getElem?_cons_zero, Option.some.injEq] at hx
          rw [eraseIdx_cons_zero, ← hx]
          cases hF : F y <;> simp [filter_cons, hF, eraseIdx_cons_zero]
      | succ k =>
          simp only [getElem?_cons_succ] at hx
          rw [eraseIdx_cons_succ]
          cases hF : F x <;> cases hFy : F y <;>
            simp [filter_cons, hF, hFy, take_succ_cons, countP_cons, ih k x hx,
              eraseIdx_cons_succ]

theorem filteredRun_view {α : Type} (F : α → Bool) :
    ∀ (es : List (ListEvent α)) (st : FilteredState α), st.view = st.source.filter F →
      eventsValid st.source.length es = true →
      (filteredRun F st es).view = (filteredRun F st es).source.filter F := by
  intro es
  induction es with
  | nil => intro st h _; exact h
  | cons e es ih =>
      intro st h hv
      cases e with
      | insert i x =>
          rw [eventsValid] at hv
          simp only [Bool.and_eq_true, decide_eq_true_eq] at hv
          obtain ⟨hi, hv⟩ := hv
          have hstep : (filteredStep F st (.insert i x)).view
              = (filteredStep F st (.insert i x)).source.filter F := by
            simp only [filteredStep]
            rw [filter_insertIdx F x i st.source hi, h]
          have hlen : (filteredStep F st (.insert i x)).source.length
              = st.source.length + 1 := by
            simp only [filteredStep]
            exact length_insertIdx i st.source hi
          exact ih _ hstep (by rw [hlen]; exact hv)
      | remove i =>
          rw [eventsValid] at hv
          simp only [Bool.and_eq_true, decide_eq_true_eq] at hv
          obtain ⟨hi, hv⟩ := hv
          obtain ⟨x, hx⟩ : ∃ x, st.source[i]? = some x :=
            ⟨st.source[i], getElem?_eq_some_iff.2 ⟨hi, rfl⟩⟩
          have hstep : (filteredStep F st (.remove i)).view
              = (filteredStep F st (.remove i)).source.filter F := by
            simp only [filteredStep, hx]
            rw [filter_eraseIdx F i st.source x hx, h]
          have hlen : (filteredStep F st (.remove i)).source.length
              = st.source.length - 1 := by
            simp only [filteredStep, hx]
            rw [length_eraseIdx]
            simp [hi]
          exact ih _ hstep (by rw [hlen]; exact hv)

/-- C1: with no sort key set, after any valid sequence of source inserts and
removes applied incrementally, the filtered view's materialized sequence
equals the source filtered by the (arbitrary, possibly composite) filter,
hence is the sublist of the source's items accepted by the filter in source
order. -/
theorem filtered_unsorted_C1 {α : Type} (f : LFilter α) (s₀ : List α)
    (es : List (ListEvent α)) (h : eventsValid s₀.length es = true) :
    (filteredRun f.matches ⟨s₀, s₀.filter f.matches⟩ es).view
        = (filteredRun f.matches ⟨s₀, s₀.filter f.matches⟩ es).source.filter f.matches
    ∧ (filteredRun f.matches ⟨s₀, s₀.filter f.matches⟩ es).view.Sublist
        (filteredRun f.matches ⟨s₀, s₀.filter f.matches⟩ es).source := by
  have hv := filteredRun_view f.matches es ⟨s₀, s₀.filter f.matches⟩ rfl h
  exact ⟨hv, hv ▸ filter_sublist _⟩

/-- C1 witness: the event sequence of the unsorted-retains-order test (with
items as numbers and the filter rejecting 4) is valid and the invariant holds
at its end. -/
theorem filtered_unsorted_C1_witness :
    (eventsValid 4
        ([ListEvent.remove 0, ListEvent.insert 0 3, ListEvent.insert 4 44,
          ListEvent.insert 0 5, ListEvent.insert 6 6] : List (ListEvent Nat)) = true)
    ∧ (filteredRun (LFilter.pred fun x : Nat => decide (x ≠ 4)).matches
          ⟨[3, 1, 4, 2], List.filter (LFilter.pred fun x : Nat => decide (x ≠ 4)).matches [3, 1, 4, 2]⟩
          [ListEvent.remove 0, ListEvent.insert 0 3, ListEvent.insert 4 44,
            ListEvent.insert 0 5, ListEvent.insert 6 6]).view
        = (filteredRun (LFilter.pred fun x : Nat => decide (x ≠ 4)).matches
            ⟨[3, 1, 4, 2], List.filter (LFilter.pred fun x : Nat => decide (x ≠ 4)).matches [3, 1, 4, 2]⟩
            [ListEvent.remove 0, ListEvent.insert 0 3, ListEvent.insert 4 44,
              ListEvent.insert 0 5, ListEvent.insert 6 6]).source.filter
            (LFilter.pred fun x : Nat => decide (x ≠ 4)).matches :=
  ⟨by decide, (filtered_unsorted_C1 (LFilter.pred fun x : Nat => decide (x ≠ 4)) [3, 1, 4, 2]
      [ListEvent.remove 0, ListEvent.insert 0 3, ListEvent.insert 4 44,
        ListEvent.insert 0 5, ListEvent.insert 6 6] (by decide)).1⟩

/-! ## Theorems: Recorder relationship sub-recorders (C10) -/

theorem mapIdx_range (n : Nat) (f : Nat → Nat → Nat) :
    (List.range n).mapIdx f = (List.range n).map fun j => f j j := by
  apply ext_getElem
  · simp [length_mapIdx]
  · intro k h1 h2
    simp [getElem_mapIdx, getElem_map, getElem_range]

theorem insertIdx_length_append {α : Type} (l₁ l₂ : List α) (x : α) :
    (l₁ ++ l₂).insertIdx l₁.length x = l₁ ++ x :: l₂ := by
  induction l₁ with
  | nil => simp
  | cons a l₁ ih => simp [insertIdx_succ_cons, ih]

theorem eraseIdx_length_append {α : Type} (l₁ l₂ : List α) (x : α) :
    (l₁ ++ x :: l₂).eraseIdx l₁.length = l₁ ++ l₂ := by
  induction l₁ with
  | nil => simp
  | cons a l₁ ih => simp [eraseIdx_cons_succ, ih]

theorem itemInserted_range {n i : Nat} (h : i ≤ n) :
    itemInserted (List.range n) i = List.range (n + 1) := by
  obtain ⟨m, rfl⟩ : ∃ m, n = i + m := ⟨n - i, by omega⟩
  unfold itemInserted
  rw [mapIdx_range, range_add, map_append, map_map]
  have h1 : (List.range i).map (fun j => if i ≤ j then j + 1 else j) = List.range i := by
    have hc : ∀ a ∈ List.range i, (fun j => if i ≤ j then j + 1 else j) a = id a := by
      intro a ha
      have : a < i := mem_range.1 ha
      simp [if_neg (by omega : ¬ i ≤ a)]
    rw [map_congr_left hc, map_id]
  have h2 : (List.range m).map
        ((fun j => if i ≤ j then j + 1 else j) ∘ fun x => i + x)
      = (List.range m).map fun x => i + x + 1 := by
    apply map_congr_left
    intro a ha
    simp [if_pos (by omega : i ≤ i + a)]
  rw [h1, h2]
  have h4 := insertIdx_length_append (List.range i) ((List.range m).map fun x => i + x + 1) i
  rw [length_range] at h4
  rw [h4]
  have h5 : i + m + 1 = i + (m + 1) := by omega
  rw [h5, range_add i (m + 1), range_succ_eq_map, map_cons, map_map]
  rfl

theorem itemRemoved_range {n i : Nat} (h : i < n) :
    itemRemoved (List.range n) i = List.range (n - 1) := by
  obtain ⟨m, rfl⟩ : ∃ m, n = i + (m + 1) := ⟨n - i - 1, by omega⟩
  unfold itemRemoved
  rw [mapIdx_range, range_add, map_append, map_map]
  have h1 : (List.range i).map (fun j => if i < j then j - 1 else j) = List.range i := by
    have hc : ∀ a ∈ List.range i, (fun j => if i < j then j - 1 else j) a = id a := by
      intro a ha
      have : a < i := mem_range.1 ha
      simp [if_neg (by omega : ¬ i < a)]
    rw [map_congr_left hc, map_id]
  have h2 : (List.range (m + 1)).map
        ((fun j => if i < j then j - 1 else j) ∘ fun x => i + x)
      = i :: (List.range m).map fun x => i + x := by
    rw [range_succ_eq_map, map_cons, map_map]
    congr 1
    · simp
    · apply map_congr_left
      intro a ha
      simp only [Function.comp_apply]
      rw [if_pos (by omega : i < i + (a + 1))]
      omega
  rw [h1, h2]
  have h4 := eraseIdx_length_append (List.range i) ((List.range m).map fun x => i + x) i
  rw [length_range] at h4
  rw [h4]
  have h5 : i + (m + 1) - 1 = i + m := by omega
  rw [h5, range_add]

theorem recRun_range : ∀ (es : List RecEvent) (n : Nat), recValid n es = true →
    ∃ m, recRun (List.range n) es = List.range m := by
  intro es
  induction es with
  | nil => intro n _; exact ⟨n, rfl⟩
  | cons e es ih =>
      intro n hv
      cases e with
      | inserted i =>
          rw [recValid] at hv
          simp only [Bool.and_eq_true, decide_eq_true_eq] at hv
          obtain ⟨hi, hv⟩ := hv
          have hstep : recStep (List.range n) (.inserted i) = List.range (n + 1) :=
            itemInserted_range hi
          have := ih (n + 1) hv
          rw [← hstep] at this
          exact this
      | removed i =>
          rw [recValid] at hv
          simp only [Bool.and_eq_true, decide_eq_true_eq] at hv
          obtain ⟨hi, hv⟩ := hv
          have hstep : recStep (List.range n) (.removed i) = List.range (n - 1) :=
            itemRemoved_range hi
          have := ih (n - 1) hv
          rw [← hstep] at this
          exact this

/-- C10: for one relationship key starting from the constructor state (the
`k`-th sub-recorder holds accessor index `k`, i.e. the list `range n`),
`item_inserted` at a valid `i` yields exactly `range (n+1)` — every existing
sub-recorder at position `≥ i` now holds its old index plus one and the new
sub-recorder sits at position `i` with accessor index `i` — and `item_removed`
at a valid `i` yields exactly `range (n-1)` — the sub-recorder at `i` is
dropped and every one above it holds its old index minus one; consequently
after any valid event sequence the `k`-th sub-recorder's accessor resolves to
relationship index `k`. -/
theorem recorder_C10 :
    (∀ (n i : Nat), i ≤ n → itemInserted (List.range n) i = List.range (n + 1))
    ∧ (∀ (n i : Nat), i < n → itemRemoved (List.range n) i = List.range (n - 1))
    ∧ ∀ (n : Nat) (es : List RecEvent), recValid n es = true →
        ∀ k : Nat, k < (recRun (List.range n) es).length →
          (recRun (List.range n) es)[k]? = some k := by
  refine ⟨fun n i h => itemInserted_range h, fun n i h => itemRemoved_range h, ?_⟩
  intro n es hv k hk
  obtain ⟨m, hm⟩ := recRun_range es n hv
  rw [hm] at hk ⊢
  have hk2 : k < (List.range m).length := hk
  exact getElem?_eq_some_iff.2 ⟨hk2, getElem_range k hk2⟩

/-- C10 witness: a concrete valid insert/remove/insert run on two
sub-recorders leaves the sub-recorder at position 1 resolving index 1. -/
theorem recorder_C10_witness :
    recValid 2 [RecEvent.inserted 1, RecEvent.removed 0, RecEvent.inserted 0] = true
    ∧ (recRun (List.range 2)
        [RecEvent.inserted 1, RecEvent.removed 0, RecEvent.inserted 0])[1]? = some 1 :=
  ⟨by decide,
    recorder_C10.2.2 2 [RecEvent.inserted 1, RecEvent.removed 0, RecEvent.inserted 0]
      (by decide) 1 (by decide)⟩

/-! ## Theorems: filtered view with sort key (C2) -/

theorem mem_insertSorted {α β : Type} [LinearOrder β] (K : α → β) (x z : α) :
    ∀ l : List α, z ∈ insertSorted K x l ↔ z = x ∨ z ∈ l := by
  intro l
  induction l with
  | nil => simp [insertSorted]
  | cons y ys ih =>
      by_cases h : K x < K y
      · rw [insertSorted, if_pos h]
        simp [mem_cons]
      · rw [insertSorted, if_neg h]
        simp only [mem_cons, ih]
        tauto

theorem perm_insertSorted {α β : Type} [LinearOrder β] (K : α → β) (x : α) :
    ∀ l : List α, (insertSorted K x l).Perm (x :: l) := by
  intro l
  induction l with
  | nil => exact Perm.refl _
  | cons y ys ih =>
      by_cases h : K x < K y
      · rw [insertSorted, if_pos h]
      · rw [insertSorted, if_neg h]
        exact (ih.cons y).trans (Perm.swap x y ys)

theorem KSorted_insertSorted {α β : Type} [LinearOrder β] (K : α → β) (x : α) :
    ∀ l : List α, KSorted K l → KSorted K (insertSorted K x l) := by
  intro l
  induction l with
  | nil =>
      intro _
      simp [insertSorted, KSorted]
  | cons y ys ih =>
      intro hl
      rcases pairwise_cons.1 hl with ⟨hy, hys⟩
      by_cases h : K x < K y
      · rw [insertSorted, if_pos h]
        refine pairwise_cons.2 ⟨?_, hl⟩
        intro z hz
        rcases mem_cons.1 hz with rfl | hz2
        · exact le_of_lt h
        · exact le_trans (le_of_lt h) (hy z hz2)
      · rw [insertSorted, if_neg h]
        refine pairwise_cons.2 ⟨?_, ih hys⟩
        intro z hz
        rw [mem_insertSorted] at hz
        rcases hz with rfl | hz2
        · exact not_lt.1 h
        · exact hy z hz2

theorem insertSorted_stable {α β : Type} [LinearOrder β] (K : α → β) (x : α) :
    ∀ l : List α, KSorted K l →
      ∃ l₁ l₂, l = l₁ ++ l₂ ∧ insertSorted K x l = l₁ ++ x :: l₂
        ∧ ∀ y ∈ l, K y ≤ K x → y ∈ l₁ := by
  intro l
  induction l with
  | nil => exact fun _ => ⟨[], [], rfl, rfl, by simp⟩
  | cons y ys ih =>
      intro hl
      rcases pairwise_cons.1 hl with ⟨hy, hys⟩
      by_cases h : K x < K y
      · refine ⟨[], y :: ys, rfl, by rw [insertSorted, if_pos h]; rfl, ?_⟩
        intro z hz hzx
        exfalso
        rcases mem_cons.1 hz with rfl | hz2
        · exact absurd h (not_lt.2 hzx)
        · exact absurd h (not_lt.2 (le_trans (hy z hz2) hzx))
      · obtain ⟨l₁, l₂, he, hi, hmem⟩ := ih hys
        refine ⟨y :: l₁, l₂, by rw [he]; rfl, ?_, ?_⟩
        · rw [insertSorted, if_neg h, hi]
          rfl
        · intro z hz hzx
          rcases mem_cons.1 hz with rfl | hz2
          · exact mem_cons_self z l₁
          · exact mem_cons_of_mem y (hmem z hz2 hzx)

theorem perm_cons_eraseIdx {α : Type} :
    ∀ (i : Nat) (s : List α) (x : α), s[i]? = some x → s.Perm (x :: s.eraseIdx i) := by
  intro i s
  induction s generalizing i with
  | nil =>
      intro x hx
      simp at hx
  | cons y t ih =>
      intro x hx
      cases i with
      | zero =>
          simp only [getElem?_cons_zero, Option.some.injEq] at hx
          rw [eraseIdx_cons_zero, ← hx]
      | succ k =>
          simp only [getElem?_cons_succ] at hx
          rw [eraseIdx_cons_succ]
          exact ((ih k x hx).cons y).trans (Perm.swap x y _)

theorem sortByKey_aux_perm {α β : Type} [LinearOrder β] (K : α → β) :
    ∀ l acc : List α, (l.foldl (fun a x => insertSorted K x a) acc).Perm (acc ++ l) := by
  intro l
  induction l with
  | nil =>
      intro acc
      simp
  | cons x t ih =>
      intro acc
      rw [foldl_cons]
      refine (ih (insertSorted K x acc)).trans ?_
      refine (Perm.append_right t (perm_insertSorted K x acc)).trans ?_
      exact perm_middle.symm

theorem sortByKey_perm {α β : Type} [LinearOrder β] (K : α → β) (l : List α) :
    (sortByKey K l).Perm l := by
  simpa using sortByKey_aux_perm K l []

theorem sortByKey_aux_sorted {α β : Type} [LinearOrder β] (K : α → β) :
    ∀ l acc : List α, KSorted K acc →
      KSorted K (l.foldl (fun a x => insertSorted K x a) acc) := by
  intro l
  induction l with
  | nil => exact fun acc h => h
  | cons x t ih =>
      intro acc h
      rw [foldl_cons]
      exact ih (insertSorted K x acc) (KSorted_insertSorted K x acc h)

theorem KSorted_sortByKey {α β : Type} [LinearOrder β] (K : α → β) (l : List α) :
    KSorted K (sortByKey K l) :=
  sortByKey_aux_sorted K l [] Pairwise.nil

theorem sortedRun_invariant {α β : Type} [DecidableEq α] [LinearOrder β]
    (F : α → Bool) (K : α → β) :
    ∀ (es : List (ListEvent α)) (st : FilteredState α),
      KSorted K st.view → st.view.Perm (st.source.filter F) →
      eventsValid st.source.length es = true →
      KSorted K (sortedRun F K st es).view
        ∧ (sortedRun F K st es).view.Perm ((sortedRun F K st es).source.filter F) := by
  intro es
  induction es with
  | nil => exact fun st hs hp _ => ⟨hs, hp⟩
  | cons e es ih =>
      intro st hs hp hv
      cases e with
      | insert i x =>
          rw [eventsValid] at hv
          simp only [Bool.and_eq_true, decide_eq_true_eq] at hv
          obtain ⟨hi, hv⟩ := hv
          have hfp : ((st.source.insertIdx i x).filter F).Perm ((x :: st.source).filter F) :=
            Perm.filter F (perm_insertIdx x st.source hi)
          have hs2 : KSorted K (sortedStep F K st (.insert i x)).view := by
            simp only [sortedStep]
            by_cases hF : F x = true
            · rw [if_pos hF]
              exact KSorted_insertSorted K x st.view hs
            · rw [if_neg hF]
              exact hs
          have hp2 : (sortedStep F K st (.insert i x)).view.Perm
              ((sortedStep F K st (.insert i x)).source.filter F) := by
            simp only [sortedStep]
            by_cases hF : F x = true
            · rw [if_pos hF]
              refine (perm_insertSorted K x st.view).trans ?_
              refine (hp.cons x).trans ?_
              have hfx : (x :: st.source).filter F = x :: st.source.filter F := by
                rw [filter_cons, if_pos hF]
              rw [hfx] at hfp
              exact hfp.symm
            · rw [if_neg hF]
              have hFf : F x = false := by
                revert hF
                cases F x <;> simp
              have hfx : (x :: st.source).filter F = st.source.filter F := by
                rw [filter_cons]
                simp [hFf]
              rw [hfx] at hfp
              exact hp.trans hfp.symm
          have hlen : (sortedStep F K st (.insert i x)).source.length
              = st.source.length + 1 := by
            simp only [sortedStep]
            exact length_insertIdx i st.source hi
          exact ih _ hs2 hp2 (by rw [hlen]; exact hv)
      | remove i =>
          rw [eventsValid] at hv
          simp only [Bool.and_eq_true, decide_eq_true_eq] at hv
          obtain ⟨hi, hv⟩ := hv
          obtain ⟨x, hx⟩ : ∃ x, st.source[i]? = some x :=
            ⟨st.source[i], getElem?_eq_some_iff.2 ⟨hi, rfl⟩⟩
          have hfp : (st.source.filter F).Perm ((x :: st.source.eraseIdx i).filter F) :=
            Perm.filter F (perm_cons_eraseIdx i st.source x hx)
          have hs2 : KSorted K (sortedStep F K st (.remove i)).view := by
            simp only [sortedStep, hx]
            by_cases hF : F x = true
            · rw [if_pos hF]
              exact Pairwise.sublist (erase_sublist x st.view) hs
            · rw [if_neg hF]
              exact hs
          have hp2 : (sortedStep F K st (.remove i)).view.Perm
              ((sortedStep F K st (.remove i)).source.filter F) := by
            simp only [sortedStep, hx]
            by_cases hF : F x = true
            · rw [if_pos hF]
              have hfx : (x :: st.source.eraseIdx i).filter F
                  = x :: (st.source.eraseIdx i).filter F := by
                rw [filter_cons, if_pos hF]
              rw [hfx] at hfp
              have hmem : x ∈ st.view :=
                hp.mem_iff.2 (hfp.mem_iff.2 (mem_cons_self x _))
              exact (((perm_cons_erase hmem).symm.trans hp).trans hfp).cons_inv
            · rw [if_neg hF]
              have hFf : F x = false := by
                revert hF
                cases F x <;> simp
              have hfx : (x :: st.source.eraseIdx i).filter F
                  = (st.source.eraseIdx i).filter F := by
                rw [filter_cons]
                simp [hFf]
              rw [hfx] at hfp
              exact hp.trans hfp
          have hlen : (sortedStep F K st (.remove i)).source.length
              = st.source.length - 1 := by
            simp only [sortedStep, hx]
            rw [length_eraseIdx]
            simp [hi]
          exact ih _ hs2 hp2 (by rw [hlen]; exact hv)

/-- C2: for any filter and sort key, starting from any state whose
materialized sequence is sorted by the key and is a permutation of the
filtered source, every valid sequence of interleaved source inserts and
removes — processed purely incrementally by `sortedStep`, with no
full-recompute hook — keeps the view sorted by the key and a permutation of
the filtered source; the incremental insert is stable, placing the new item
after every existing item whose key is at most (in particular equal to) the
new key; and the spec's concrete example holds: source `[3,1,4,2]` sorts to
`[1,2,3,4]`, removing source index 1 twice leaves `[2,3]`, then inserting `5`
and `1` at the source front leaves `[1,2,3,5]`. -/
theorem sorted_filtered_C2 :
    (∀ (α β : Type) [_inst1 : DecidableEq α] [_inst2 : LinearOrder β] (f : LFilter α)
        (K : α → β) (st : FilteredState α) (es : List (ListEvent α)),
        KSorted K st.view → st.view.Perm (st.source.filter f.matches) →
        eventsValid st.source.length es = true →
        KSorted K (sortedRun f.matches K st es).view
          ∧ (sortedRun f.matches K st es).view.Perm
              ((sortedRun f.matches K st es).source.filter f.matches))
    ∧ (∀ (α β : Type) [_inst3 : LinearOrder β] (K : α → β) (x : α) (l : List α),
        KSorted K l →
        ∃ l₁ l₂, l = l₁ ++ l₂ ∧ insertSorted K x l = l₁ ++ x :: l₂
          ∧ ∀ y ∈ l, K y ≤ K x → y ∈ l₁)
    ∧ sortByKey (id : Nat → Nat) (List.filter (LFilter.acceptAll true).matches [3, 1, 4, 2])
        = [1, 2, 3, 4]
    ∧ (sortedRun (LFilter.acceptAll true).matches (id : Nat → Nat)
        ⟨[3, 1, 4, 2], [1, 2, 3, 4]⟩ [ListEvent.remove 1, ListEvent.remove 1]).view = [2, 3]
    ∧ (sortedRun (LFilter.acceptAll true).matches (id : Nat → Nat)
        ⟨[3, 1, 4, 2], [1, 2, 3, 4]⟩
        [ListEvent.remove 1, ListEvent.remove 1, ListEvent.insert 0 5,
          ListEvent.insert 0 1]).view = [1, 2, 3, 5] := by
  refine ⟨?_, ?_, by decide, by decide, by decide⟩
  · intro α β _i1 _i2 f K st es hs hp hv
    exact sortedRun_invariant f.matches K es st hs hp hv
  · intro α β _i3 K x l hl
    exact insertSorted_stable K x l hl

/-- C2 witness: the invariant-maintenance part applied to the concrete sorted
run of the spec's example. -/
theorem sorted_filtered_C2_witness :
    KSorted (id : Nat → Nat)
        (sortedRun (LFilter.acceptAll true).matches (id : Nat → Nat)
          ⟨[3, 1, 4, 2], [1, 2, 3, 4]⟩
          [ListEvent.remove 1, ListEvent.remove 1, ListEvent.insert 0 5,
            ListEvent.insert 0 1]).view
    ∧ (sortedRun (LFilter.acceptAll true).matches (id : Nat → Nat)
          ⟨[3, 1, 4, 2], [1, 2, 3, 4]⟩
          [ListEvent.remove 1, ListEvent.remove 1, ListEvent.insert 0 5,
            ListEvent.insert 0 1]).view.Perm
        ((sortedRun (LFilter.acceptAll true).matches (id : Nat → Nat)
            ⟨[3, 1, 4, 2], [1, 2, 3, 4]⟩
            [ListEvent.remove 1, ListEvent.remove 1, ListEvent.insert 0 5,
              ListEvent.insert 0 1]).source.filter (LFilter.acceptAll true).matches) :=
  sorted_filtered_C2.1 Nat Nat (LFilter.acceptAll true) id ⟨[3, 1, 4, 2], [1, 2, 3, 4]⟩
    [ListEvent.remove 1, ListEvent.remove 1, ListEvent.insert 0 5, ListEvent.insert 0 1]
    (by decide) (by decide) (by decide)

/-! ## Theorems: switching sorted/unsorted configuration (C7) -/

/-- C7: switching an attached view to unsorted recomputes its sequence to the
filtered source in source order, switching to sorted recomputes it to the
stable sort by key of the filtered source, and in both cases the subsequent
incremental updates stay correct for any valid event sequence (taking the
empty sequence gives the immediately-after-the-switch equality
`view = sort_or_not(filter(source))`).  The concrete conjuncts replay the
sorted-to-unsorted test: the sorted view `[1,2,3,4]` of source `[3,1,4,2]`
becomes `[3,1,2]` with the filter rejecting 4 and no sort key, and removing
source index 1 then leaves `[3,2]`. -/
theorem switch_config_C7 :
    (∀ (α : Type) (f : LFilter α) (st : FilteredState α) (es : List (ListEvent α)),
        eventsValid st.source.length es = true →
        (filteredRun f.matches (setUnsorted f.matches st) es).view
          = (filteredRun f.matches (setUnsorted f.matches st) es).source.filter f.matches)
    ∧ (∀ (α β : Type) [_i1 : DecidableEq α] [_i2 : LinearOrder β] (f : LFilter α)
        (K : α → β) (st : FilteredState α) (es : List (ListEvent α)),
        eventsValid st.source.length es = true →
        KSorted K (sortedRun f.matches K (setSorted f.matches K st) es).view
          ∧ (sortedRun f.matches K (setSorted f.matches K st) es).view.Perm
              ((sortedRun f.matches K (setSorted f.matches K st) es).source.filter f.matches))
    ∧ (setUnsorted (LFilter.pred fun x : Nat => decide (x ≠ 4)).matches
        ⟨[3, 1, 4, 2], [1, 2, 3, 4]⟩).view = [3, 1, 2]
    ∧ (filteredRun (LFilter.pred fun x : Nat => decide (x ≠ 4)).matches
        (setUnsorted (LFilter.pred fun x : Nat => decide (x ≠ 4)).matches
          ⟨[3, 1, 4, 2], [1, 2, 3, 4]⟩) [ListEvent.remove 1]).view = [3, 2] := by
  refine ⟨?_, ?_, by decide, by decide⟩
  · intro α f st es hv
    exact filteredRun_view f.matches es (setUnsorted f.matches st) rfl hv
  · intro α β _i1 _i2 f K st es hv
    exact sortedRun_invariant f.matches K es (setSorted f.matches K st)
      (KSorted_sortByKey K _) (sortByKey_perm K _) hv

/-- C7 witness: the unsorted branch applied to the concrete switched state of
the sorted-to-unsorted test. -/
theorem switch_config_C7_witness :
    (filteredRun (LFilter.pred fun x : Nat => decide (x ≠ 4)).matches
        (setUnsorted (LFilter.pred fun x : Nat => decide (x ≠ 4)).matches
          ⟨[3, 1, 4, 2], [1, 2, 3, 4]⟩) [ListEvent.remove 1]).view
      = (filteredRun (LFilter.pred fun x : Nat => decide (x ≠ 4)).matches
          (setUnsorted (LFilter.pred fun x : Nat => decide (x ≠ 4)).matches
            ⟨[3, 1, 4, 2], [1, 2, 3, 4]⟩)
          [ListEvent.remove 1]).source.filter (LFilter.pred fun x : Nat => decide (x ≠ 4)).matches :=
  switch_config_C7.1 Nat (LFilter.pred fun x : Nat => decide (x ≠ 4))
    ⟨[3, 1, 4, 2], [1, 2, 3, 4]⟩ [ListEvent.remove 1] (by decide)

/-! ## Theorems: flattening view (C3) -/

theorem offsetAt_cons_succ {α : Type} (d : List α) (t : List (List α)) (i : Nat) :
    offsetAt (d :: t) (i + 1) = d.length + offsetAt t i := by
  simp [offsetAt, take_succ_cons]

theorem insertIdx_append_right {α : Type} :
    ∀ (l₁ l₂ : List α) (n : Nat) (x : α),
      (l₁ ++ l₂).insertIdx (l₁.length + n) x = l₁ ++ l₂.insertIdx n x := by
  intro l₁
  induction l₁ with
  | nil =>
      intro l₂ n x
      simp
  | cons a l₁ ih =>
      intro l₂ n x
      have h : (a :: l₁).length + n = (l₁.length + n) + 1 := by
        simp
        omega
      rw [cons_append, h, insertIdx_succ_cons, ih, cons_append]

theorem eraseIdx_append_right {α : Type} :
    ∀ (l₁ l₂ : List α) (n : Nat),
      (l₁ ++ l₂).eraseIdx (l₁.length + n) = l₁ ++ l₂.eraseIdx n := by
  intro l₁
  induction l₁ with
  | nil =>
      intro l₂ n
      simp
  | cons a l₁ ih =>
      intro l₂ n
      have h : (a :: l₁).length + n = (l₁.length + n) + 1 := by
        simp
        omega
      rw [cons_append, h, eraseIdx_cons_succ, ih, cons_append]

theorem insertIdx_append_left {α : Type} :
    ∀ (l₁ l₂ : List α) (j : Nat) (x : α), j ≤ l₁.length →
      (l₁ ++ l₂).insertIdx j x = l₁.insertIdx j x ++ l₂ := by
  intro l₁
  induction l₁ with
  | nil =>
      intro l₂ j x hj
      have : j = 0 := by simpa using hj
      subst this
      simp
  | cons a l₁ ih =>
      intro l₂ j x hj
      cases j with
      | zero => simp
      | succ k =>
          have hk : k ≤ l₁.length := by simpa using hj
          rw [cons_append, insertIdx_succ_cons, insertIdx_succ_cons, ih l₂ k x hk,
            cons_append]

theorem eraseIdx_append_left {α : Type} :
    ∀ (l₁ l₂ : List α) (j : Nat), j < l₁.length →
      (l₁ ++ l₂).eraseIdx j = l₁.eraseIdx j ++ l₂ := by
  intro l₁
  induction l₁ with
  | nil =>
      intro l₂ j hj
      simp at hj
  | cons a l₁ ih =>
      intro l₂ j hj
      cases j with
      | zero => simp
      | succ k =>
          have hk : k < l₁.length := by simpa using hj
          rw [cons_append, eraseIdx_cons_succ, eraseIdx_cons_succ, ih l₂ k hk, cons_append]

theorem masterInsert_flat {α : Type} :
    ∀ (m : List (List α)) (i : Nat) (c : List α), i ≤ m.length →
      m.flatten.take (offsetAt m i) ++ c ++ m.flatten.drop (offsetAt m i)
        = (m.insertIdx i c).flatten := by
  intro m
  induction m with
  | nil =>
      intro i c hi
      have : i = 0 := by simpa using hi
      subst this
      simp [offsetAt]
  | cons d t ih =>
      intro i c hi
      cases i with
      | zero => simp [offsetAt]
      | succ k =>
          have hk : k ≤ t.length := by simpa using hi
          rw [offsetAt_cons_succ, insertIdx_succ_cons, flatten_cons, flatten_cons,
            take_append, drop_append, ← ih k c hk]
          simp [append_assoc]

theorem masterRemove_flat {α : Type} :
    ∀ (m : List (List α)) (i : Nat) (c : List α), m[i]? = some c →
      m.flatten.take (offsetAt m i) ++ m.flatten.drop (offsetAt m i + c.length)
        = (m.eraseIdx i).flatten := by
  intro m
  induction m with
  | nil =>
      intro i c hc
      simp at hc
  | cons d t ih =>
      intro i c hc
      cases i with
      | zero =>
          simp only [getElem?_cons_zero, Option.some.injEq] at hc
          subst hc
          simp [offsetAt, flatten_cons, drop_left]
      | succ k =>
          simp only [getElem?_cons_succ] at hc
          rw [offsetAt_cons_succ, eraseIdx_cons_succ, flatten_cons, flatten_cons,
            take_append]
          have h : d.length + offsetAt t k + c.length
              = d.length + (offsetAt t k + c.length) := by omega
          rw [h, drop_append, ← ih k c hc]
          simp [append_assoc]

theorem childInsert_flat {α : Type} :
    ∀ (m : List (List α)) (i j : Nat) (x : α) (c : List α),
      m[i]? = some c → j ≤ c.length →
      m.flatten.insertIdx (offsetAt m i + j) x = (m.set i (c.insertIdx j x)).flatten := by
  intro m
  induction m with
  | nil =>
      intro i j x c hc _
      simp at hc
  | cons d t ih =>
      intro i j x c hc hj
      cases i with
      | zero =>
          simp only [getElem?_cons_zero, Option.some.injEq] at hc
          subst hc
          rw [set_cons_zero, flatten_cons, flatten_cons]
          have h0 : offsetAt (d :: t) 0 + j = j := by
            simp [offsetAt]
          rw [h0, insertIdx_append_left d t.flatten j x hj]
      | succ k =>
          simp only [getElem?_cons_succ] at hc
          rw [offsetAt_cons_succ, set_cons_succ, flatten_cons, flatten_cons]
          have h : d.length + offsetAt t k + j = d.length + (offsetAt t k + j) := by omega
          rw [h, insertIdx_append_right, ih k j x c hc hj]

theorem childRemove_flat {α : Type} :
    ∀ (m : List (List α)) (i j : Nat) (c : List α),
      m[i]? = some c → j < c.length →
      m.flatten.eraseIdx (offsetAt m i + j) = (m.set i (c.eraseIdx j)).flatten := by
  intro m
  induction m with
  | nil =>
      intro i j c hc _
      simp at hc
  | cons d t ih =>
      intro i j c hc hj
      cases i with
      | zero =>
          simp only [getElem?_cons_zero, Option.some.injEq] at hc
          subst hc
          rw [set_cons_zero, flatten_cons, flatten_cons]
          have h0 : offsetAt (d :: t) 0 + j = j := by
            simp [offsetAt]
          rw [h0, eraseIdx_append_left d t.flatten j hj]
      | succ k =>
          simp only [getElem?_cons_succ] at hc
          rw [offsetAt_cons_succ, set_cons_succ, flatten_cons, flatten_cons]
          have h : d.length + offsetAt t k + j = d.length + (offsetAt t k + j) := by omega
          rw [h, eraseIdx_append_right, ih k j c hc hj]

theorem flatRun_flat {α : Type} :
    ∀ (es : List (FlatEvent α)) (st : FlatState α),
      st.flat = st.master.flatten → flatValidSeq st es = true →
      (flatRun st es).flat = (flatRun st es).master.flatten := by
  intro es
  induction es with
  | nil => exact fun st h _ => h
  | cons e es ih =>
      intro st h hv
      rw [flatValidSeq] at hv
      simp only [Bool.and_eq_true] at hv
      obtain ⟨hev, hv⟩ := hv
      have hstep : (flatStep st e).flat = (flatStep st e).master.flatten := by
        cases e with
        | masterInsert i c =>
            simp only [flatEventValid, decide_eq_true_eq] at hev
            simp only [flatStep]
            rw [h]
            exact masterInsert_flat st.master i c hev
        | masterRemove i =>
            simp only [flatEventValid, decide_eq_true_eq] at hev
            obtain ⟨c, hc⟩ : ∃ c, st.master[i]? = some c :=
              ⟨st.master[i], getElem?_eq_some_iff.2 ⟨hev, rfl⟩⟩
            simp only [flatStep, hc]
            rw [h]
            exact masterRemove_flat st.master i c hc
        | childInsert i j x =>
            simp only [flatEventValid] at hev
            cases hc : st.master[i]? with
            | none =>
                rw [hc] at hev
                simp at hev
            | some c =>
                rw [hc] at hev
                simp only [decide_eq_true_eq] at hev
                simp only [flatStep, hc]
                rw [h]
                exact childInsert_flat st.master i j x c hc hev
        | childRemove i j =>
            simp only [flatEventValid] at hev
            cases hc : st.master[i]? with
            | none =>
                rw [hc] at hev
                simp at hev
            | some c =>
                rw [hc] at hev
                simp only [decide_eq_true_eq] at hev
                simp only [flatStep, hc]
                rw [h]
                exact childRemove_flat st.master i j c hc hev
      exact ih _ hstep hv

/-- C3: after any valid sequence of master-item inserts (with pre-populated
children), master-item removals, and child-item inserts and removes of
existing master items — each applied incrementally and in any combination —
the flattening view's materialized sequence equals the concatenation of the
master items' child sequences in master order.  The concrete conjuncts replay
the four flattened-model tests and a combined run on the master list
`[[11,12],[],[31,32,33]]`. -/
theorem flattened_C3 :
    (∀ (α : Type) (st : FlatState α) (es : List (FlatEvent α)),
        st.flat = st.master.flatten → flatValidSeq st es = true →
        (flatRun st es).flat = (flatRun st es).master.flatten)
    ∧ (flatRun (⟨[[11, 12], [], [31, 32, 33]], [11, 12, 31, 32, 33]⟩ : FlatState Nat)
        [FlatEvent.masterInsert 1 [41, 42]]).flat = [11, 12, 41, 42, 31, 32, 33]
    ∧ (flatRun (⟨[[11, 12], [], [31, 32, 33]], [11, 12, 31, 32, 33]⟩ : FlatState Nat)
        [FlatEvent.masterRemove 0]).flat = [31, 32, 33]
    ∧ (flatRun (⟨[[11, 12], [], [31, 32, 33]], [11, 12, 31, 32, 33]⟩ : FlatState Nat)
        [FlatEvent.childInsert 0 1 115]).flat = [11, 115, 12, 31, 32, 33]
    ∧ (flatRun (⟨[[11, 12], [], [31, 32, 33]], [11, 12, 31, 32, 33]⟩ : FlatState Nat)
        [FlatEvent.childRemove 0 1]).flat = [11, 31, 32, 33]
    ∧ (flatRun (⟨[[11, 12], [], [31, 32, 33]], [11, 12, 31, 32, 33]⟩ : FlatState Nat)
        [FlatEvent.masterInsert 1 [41, 42], FlatEvent.childInsert 0 1 115,
          FlatEvent.masterRemove 2, FlatEvent.childRemove 2 0]).flat
        = [11, 115, 12, 41, 42, 32, 33] := by
  refine ⟨?_, by decide, by decide, by decide, by decide, by decide⟩
  intro α st es h hv
  exact flatRun_flat es st h hv

/-- C3 witness: the invariant applied to the master-insert test run. -/
theorem flattened_C3_witness :
    (flatRun (⟨[[11, 12], [], [31, 32, 33]], [11, 12, 31, 32, 33]⟩ : FlatState Nat)
        [FlatEvent.masterInsert 1 [41, 42]]).flat
      = (flatRun (⟨[[11, 12], [], [31, 32, 33]], [11, 12, 31, 32, 33]⟩ : FlatState Nat)
          [FlatEvent.masterInsert 1 [41, 42]]).master.flatten :=
  flattened_C3.1 Nat ⟨[[11, 12], [], [31, 32, 33]], [11, 12, 31, 32, 33]⟩
    [FlatEvent.masterInsert 1 [41, 42]] (by decide) (by decide)

end NionUtils
